import Mathlib

/-!
Verification of the orgize lossless Org-mode syntax-tree engine.

The tree model and the typed accessors (`Headline`, `PropertyDrawer`,
`Snippet`, the LSP completion) are translated from the Rust sources.
The grammar sub-parsers (`headline_node`, `section_node`,
`property_drawer_node`, `blank_lines`, `snippet_node`) are not part of
the provided sources; they are modelled from the specification, as
noted on each definition.  Source text is modelled as `List Char`
(inputs of interest are ASCII, so bytes and chars coincide).
-/

namespace Orgize

/-- Kind taxonomy: the closed enumeration tagging every tree element. -/
inductive SyntaxKind where
  | DOCUMENT
  | HEADLINE
  | SECTION
  | PARAGRAPH
  | PROPERTY_DRAWER
  | NODE_PROPERTY
  | DRAWER
  | DRAWER_CONTENT
  | SNIPPET
  | TEXT
  | WHITESPACE
  | NEW_LINE
  | BLANK_LINE
  | HEADLINE_STARS
  | HEADLINE_TITLE
  | COLON
  | AT_AT
  deriving DecidableEq, Repr

open SyntaxKind

/-- Green tree element: a leaf token carrying a text span, or a branch
node carrying an ordered list of children (rowan green tree). -/
inductive GreenElement where
  | token (kind : SyntaxKind) (text : List Char)
  | node (kind : SyntaxKind) (children : List GreenElement)
  deriving Repr

mutual

/-- In-order concatenation of all leaf spans of an element. -/
def GreenElement.text : GreenElement → List Char
  | .token _ t => t
  | .node _ cs => GreenElement.textList cs

/-- In-order concatenation of all leaf spans of a list of elements. -/
def GreenElement.textList : List GreenElement → List Char
  | [] => []
  | c :: cs => c.text ++ GreenElement.textList cs

end

/-- The kind tag of an element. -/
def kindOf : GreenElement → SyntaxKind
  | .token k _ => k
  | .node k _ => k

/-- `children_with_tokens()`: immediate children, nodes and tokens. -/
def childrenWithTokens : GreenElement → List GreenElement
  | .node _ cs => cs
  | .token _ _ => []

/-- Whether an element is a branch node. -/
def isNode : GreenElement → Bool
  | .node _ _ => true
  | .token _ _ => false

/-- `children()`: immediate children, nodes only. -/
def childNodes (e : GreenElement) : List GreenElement :=
  (childrenWithTokens e).filter isNode

/-- Texts of the immediate `TEXT` token children of an element
(`children_with_tokens().filter_map(filter_token(SyntaxKind::TEXT))`). -/
def textTokens (e : GreenElement) : List (List Char) :=
  (childrenWithTokens e).filterMap fun c =>
    match c with
    | .token SyntaxKind.TEXT t => some t
    | _ => none

/-- Intra-line whitespace (space or tab). -/
def isWsChar (c : Char) : Bool :=
  c = ' ' || c = '\t'

/-- Split off the first line of the input (the line includes its
terminating newline, if any) and return it with the remaining input. -/
def takeLine : List Char → List Char × List Char
  | [] => ([], [])
  | c :: r =>
    if c = '\n' then (['\n'], r)
    else
      let p := takeLine r
      (c :: p.1, p.2)

/-- Split the input into lines; every line is nonempty and ends with a
newline except possibly the last. -/
def splitLines : List Char → List (List Char)
  | [] => []
  | c :: r =>
    if c = '\n' then ['\n'] :: splitLines r
    else
      match splitLines r with
      | [] => [[c]]
      | l :: ls => (c :: l) :: ls

/-- Split a line into its content and its trailing newline (if any). -/
def stripNl (l : List Char) : List Char × List Char :=
  if l.getLast? = some '\n' then (l.dropLast, ['\n']) else (l, [])

/-- Number of leading star characters of the input. -/
def starCount (i : List Char) : Nat :=
  (i.takeWhile (· = '*')).length

/-- Whether the input begins a headline: one or more stars followed by
intra-line whitespace (a star run with no trailing whitespace is not a
headline start). -/
def isHlStart (i : List Char) : Bool :=
  decide (0 < starCount i) &&
    match i.dropWhile (· = '*') with
    | c :: _ => isWsChar c
    | [] => false

/-- The lexical pieces of a headline's own line: the star run, the
whitespace run, the title text and the optional terminating newline. -/
structure HlLine where
  stars : List Char
  ws : List Char
  title : List Char
  newline : List Char
  deriving Repr

/-- Split a headline's own line off the input. -/
def splitHlLine (i : List Char) : HlLine × List Char :=
  let stars := i.takeWhile (· = '*')
  let r1 := i.dropWhile (· = '*')
  let ws := r1.takeWhile isWsChar
  let r2 := r1.dropWhile isWsChar
  let title := r2.takeWhile (· ≠ '\n')
  let r3 := r2.dropWhile (· ≠ '\n')
  (⟨stars, ws, title, r3.take 1⟩, r3.drop 1)

/-- Modelled from the spec (the `section`/`paragraph` grammar rules are
not in the provided sources): consume whole lines of free text until a
headline start or end of input.  `fuel` bounds the recursion; any
`fuel ≥ length` is enough since every line is nonempty. -/
def sectionTextF : Nat → List Char → List Char × List Char
  | 0, i => ([], i)
  | fuel + 1, i =>
    if i.isEmpty || isHlStart i then ([], i)
    else
      let p := takeLine i
      let q := sectionTextF fuel p.2
      (p.1 ++ q.1, q.2)

/-- Modelled from the spec: section text from the input. -/
def sectionText (i : List Char) : List Char × List Char :=
  sectionTextF i.length i

/-- Modelled from the spec (`section_node` is not in the provided
sources): a SECTION node holding the free text before the next
headline, failing without consuming when there is none. -/
def section_node (i : List Char) : Option (List Char × GreenElement) :=
  let p := sectionText i
  if p.1.isEmpty then none
  else some (p.2, .node SECTION [.node PARAGRAPH [.token TEXT p.1]])

/-- Whether a line consists only of whitespace (a blank line). -/
def isBlankLine (l : List Char) : Bool :=
  !l.isEmpty && l.all fun c => c = ' ' || c = '\t' || c = '\n'

/-- Modelled from the spec (`blank_lines` is not in the provided
sources): consume zero or more blank lines, one BLANK_LINE token each. -/
def blankLinesF : Nat → List Char → List GreenElement × List Char
  | 0, i => ([], i)
  | fuel + 1, i =>
    let p := takeLine i
    if isBlankLine p.1 then
      let q := blankLinesF fuel p.2
      (.token BLANK_LINE p.1 :: q.1, q.2)
    else ([], i)

/-- Modelled from the spec: the blank-line combinator. -/
def blank_lines (i : List Char) : List GreenElement × List Char :=
  blankLinesF i.length i

/-- Modelled from the spec (the `node_property` grammar rule is not in
the provided sources): parse one `:KEY: VALUE` line into a
NODE_PROPERTY node whose TEXT tokens are the key and, when present,
the value. -/
def parsePropLine (l : List Char) : Option GreenElement :=
  match l with
  | ':' :: r =>
    let key := r.takeWhile fun c => c ≠ ':' && c ≠ '\n'
    let r2 := r.dropWhile fun c => c ≠ ':' && c ≠ '\n'
    if key.isEmpty then none
    else
      match r2 with
      | ':' :: rest =>
        let p := stripNl rest
        let ws := p.1.takeWhile isWsChar
        let v := p.1.dropWhile isWsChar
        some (.node NODE_PROPERTY
          ([.token COLON [':'], .token TEXT key, .token COLON [':']]
            ++ (if ws.isEmpty then [] else [.token WHITESPACE ws])
            ++ (if v.isEmpty then [] else [.token TEXT v])
            ++ (if p.2.isEmpty then [] else [.token NEW_LINE p.2])))
      | _ => none
  | _ => none

/-- The leaf tokens of a drawer's `:END:` line. -/
def endLineTokens (l : List Char) : List GreenElement :=
  [.token COLON [':'], .token TEXT "END".data, .token COLON [':']]
    ++ (if (stripNl l).2.isEmpty then [] else [.token NEW_LINE (stripNl l).2])

/-- Modelled from the spec: parse the lines of a property drawer's body
up to and including its `:END:` line (or end of input, the tolerant
fallback for an unterminated drawer), returning the produced elements
and the unconsumed lines. -/
def propertyLinesParse : List (List Char) → Option (List GreenElement × List (List Char))
  | [] => some ([], [])
  | l :: ls =>
    if (stripNl l).1 = ":END:".data then some (endLineTokens l, ls)
    else
      match parsePropLine l with
      | none => none
      | some e =>
        match propertyLinesParse ls with
        | none => none
        | some (es, rest) => some (e :: es, rest)

/-- Modelled from the spec (`property_drawer_node` is not in the
provided sources): recognize a `:PROPERTIES:` opening line, then
`:KEY: VALUE` lines until a `:END:` line or end of input. -/
def property_drawer_node (i : List Char) : Option (List Char × GreenElement) :=
  match splitLines i with
  | [] => none
  | l :: ls =>
    let p := stripNl l
    if p.1 = ":PROPERTIES:".data then
      match propertyLinesParse ls with
      | none => none
      | some (es, rest) =>
        some (rest.flatten, .node PROPERTY_DRAWER
          ([.token COLON [':'], .token TEXT "PROPERTIES".data, .token COLON [':']]
            ++ (if p.2.isEmpty then [] else [.token NEW_LINE p.2])
            ++ es))
    else none

/-- Characters permitted in a snippet's backend name. -/
def isBackendChar (c : Char) : Bool :=
  c.isAlphanum || c = '-'

/-- Modelled from the spec (the `snippet` grammar rule is not in the
provided sources): recognize `@@`, a nonempty backend-name run, `:`, a
value run, `@@`; any deviation fails the alternative. -/
def snippet_node (i : List Char) : Option (List Char × GreenElement) :=
  if i.take 2 = "@@".data then
    let r := i.drop 2
    let backend := r.takeWhile isBackendChar
    let r2 := r.dropWhile isBackendChar
    if backend.isEmpty then none
    else if r2.head? = some ':' then
      let r3 := r2.tail
      let v := r3.takeWhile fun c => c ≠ '@' && c ≠ '\n'
      let r4 := r3.dropWhile fun c => c ≠ '@' && c ≠ '\n'
      if r4.take 2 = "@@".data then
        some (r4.drop 2, .node SNIPPET
          [.token AT_AT "@@".data, .token TEXT backend, .token COLON [':'],
           .token TEXT v, .token AT_AT "@@".data])
      else none
    else none
  else none

/-- Build a HEADLINE node from its line pieces, its section text and
its nested sub-headlines. -/
def mkHeadline (hl : HlLine) (sect : List Char) (subs : List GreenElement) : GreenElement :=
  .node HEADLINE
    ([.token HEADLINE_STARS hl.stars, .token WHITESPACE hl.ws]
      ++ (if hl.title.isEmpty then [] else [.node HEADLINE_TITLE [.token TEXT hl.title]])
      ++ (if hl.newline.isEmpty then [] else [.token NEW_LINE hl.newline])
      ++ (if sect.isEmpty then [] else [.node SECTION [.node PARAGRAPH [.token TEXT sect]]])
      ++ subs)

/-- Modelled from the spec (the `headline` grammar rule is not in the
provided sources): starting at a headline of level deeper than `lvl`,
parse the maximal run of such headlines; each one owns, as trailing
children, the following headlines of strictly deeper level, stopping
at the first headline of equal or shallower level.  `fuel` bounds the
recursion depth; any `fuel > length` is enough since every headline
consumes at least its stars and whitespace. -/
def parseHeadlinesF : Nat → Nat → List Char → List Char × List GreenElement
  | 0, _, i => (i, [])
  | fuel + 1, lvl, i =>
    if !isHlStart i || starCount i ≤ lvl then (i, [])
    else
      let p := splitHlLine i
      let q := sectionTextF p.2.length p.2
      let sub := parseHeadlinesF fuel p.1.stars.length q.2
      let sib := parseHeadlinesF fuel lvl sub.1
      (sib.1, mkHeadline p.1 q.1 sub.2 :: sib.2)

/-- Modelled from the spec: the nested-headline repetition. -/
def parseHeadlines (lvl : Nat) (i : List Char) : List Char × List GreenElement :=
  parseHeadlinesF (i.length + 1) lvl i

/-- Modelled from the spec (`headline_node` is not in the provided
sources): parse one headline: the star run with its mandatory trailing
whitespace, the title up to end of line, a SECTION for the immediately
following non-headline content, then the nested deeper-level
headlines. -/
def headline_node (i : List Char) : Option (List Char × GreenElement) :=
  if isHlStart i then
    let p := splitHlLine i
    let q := sectionTextF p.2.length p.2
    let sub := parseHeadlines p.1.stars.length q.2
    some (sub.1, mkHeadline p.1 q.1 sub.2)
  else none

/-- The headline-by-headline repetition loop of `document_node_base`
(`while !i.is_empty() { let (input, headline) = headline_node(i)?; … }`).
`fuel` bounds the iteration count; any `fuel ≥ length` is enough since
every successful `headline_node` call consumes at least one byte. -/
def documentHeadlinesF : Nat → List Char → Option (List Char × List GreenElement)
  | _, [] => some ([], [])
  | 0, _ :: _ => none
  | fuel + 1, c :: cs =>
    match headline_node (c :: cs) with
    | none => none
    | some (r, hl) =>
      match documentHeadlinesF fuel r with
      | none => none
      | some (r2, hls) => some (r2, hl :: hls)

/-- The headline loop with sufficient fuel. -/
def documentHeadlines (i : List Char) : Option (List Char × List GreenElement) :=
  documentHeadlinesF i.length i

/-- `document_node_base`, translated from `src/syntax/document.rs`: an
empty input yields an empty DOCUMENT; otherwise an optional leading
property drawer, blank lines, an optional leading section, then
headlines until the input is exhausted. -/
def document_node_base (i : List Char) : Option (List Char × GreenElement) :=
  if i.isEmpty then some (i, .node DOCUMENT [])
  else
    let pd := match property_drawer_node i with
      | some (r, e) => (r, [e])
      | none => (i, [])
    let bl := blank_lines pd.1
    let children1 := pd.2 ++ bl.1
    if bl.2.isEmpty then some (bl.2, .node DOCUMENT children1)
    else
      let st := match section_node bl.2 with
        | some (r, e) => (r, [e])
        | none => (bl.2, [])
      match documentHeadlines st.1 with
      | none => none
      | some (r, hls) => some (r, .node DOCUMENT (children1 ++ st.2 ++ hls))

/-- `document_node`, translated from `src/syntax/document.rs`.
Modelled from the spec: the `lossless_parser!` wrapper only adds
debug-time instrumentation around `document_node_base`, so it is the
identity on results. -/
def document_node (i : List Char) : Option (List Char × GreenElement) :=
  document_node_base i

/-- `Headline::level`, translated from `src/ast/headline.rs`: the
length of the first HEADLINE_STARS token among the children, with the
debug-asserted fallback 0 when it is absent. -/
def Headline.level (h : GreenElement) : Nat :=
  ((childrenWithTokens h).findSome? fun c =>
    match c with
    | .token SyntaxKind.HEADLINE_STARS t => some t.length
    | _ => none).getD 0

/-- `Headline::title`, translated from `src/ast/headline.rs`: the
children of the first HEADLINE_TITLE child node, or nothing. -/
def Headline.title (h : GreenElement) : List GreenElement :=
  match (childNodes h).find? fun c => kindOf c = HEADLINE_TITLE with
  | some t => childrenWithTokens t
  | none => []

/-- `Headline::title_raw`, translated from `src/ast/headline.rs`: the
text of the first HEADLINE_TITLE child node, or empty. -/
def Headline.title_raw (h : GreenElement) : List Char :=
  (((childNodes h).find? fun c => kindOf c = HEADLINE_TITLE).map
    GreenElement.text).getD []

/-- `Headline::is_commented`, translated from `src/ast/headline.rs`:
true when the title's first element is a TEXT token starting with
"COMMENT" followed by nothing or a whitespace character. -/
def Headline.is_commented (h : GreenElement) : Bool :=
  match (Headline.title h).head? with
  | some (.token k t) =>
    k = SyntaxKind.TEXT && t.take 7 = "COMMENT".data &&
      (t.length = 7 ||
        match t.drop 7 with
        | c :: _ => c.isWhitespace
        | [] => false)
  | _ => false

/-- The immediate HEADLINE child nodes of a headline: the nested
deeper-level headlines it owns as trailing children. -/
def subHeadlines (h : GreenElement) : List GreenElement :=
  (childNodes h).filter fun c => kindOf c = HEADLINE

/-- `PropertyDrawer::node_properties`.  Modelled from the spec (the
generated accessor is not in the provided sources): the NODE_PROPERTY
child nodes of the drawer. -/
def PropertyDrawer.node_properties (d : GreenElement) : List GreenElement :=
  (childNodes d).filter fun c => kindOf c = NODE_PROPERTY

/-- `PropertyDrawer::iter`, translated from `src/ast/drawer.rs`: for
each property line, the first two TEXT tokens as a key/value pair;
lines with fewer than two TEXT tokens yield nothing. -/
def PropertyDrawer.iter (d : GreenElement) : List (List Char × List Char) :=
  (PropertyDrawer.node_properties d).filterMap fun p =>
    match textTokens p with
    | k :: v :: _ => some (k, v)
    | _ => none

/-- `PropertyDrawer::get`, translated from `src/ast/drawer.rs`: the
value of the first pair whose key matches. -/
def PropertyDrawer.get (d : GreenElement) (key : List Char) : Option (List Char) :=
  (PropertyDrawer.iter d).findSome? fun p =>
    if p.1 = key then some p.2 else none

/-- One `HashMap::insert`: drop any existing entry for the key and add
the new one.  As a key-to-value mapping this is exactly the hash map's
insert-with-overwrite; a hash map's entry order is unspecified and
irrelevant. -/
def hashMapInsert (m : List (List Char × List Char)) (p : List Char × List Char) :
    List (List Char × List Char) :=
  m.filter (fun q => decide (q.1 ≠ p.1)) ++ [p]

/-- `PropertyDrawer::to_hash_map`, translated from `src/ast/drawer.rs`
(`self.iter().collect::<HashMap<_, _>>()`).  The hash map is modelled
as an association list without duplicate keys, built by successive
inserts; entry order is irrelevant to the map's contents. -/
def PropertyDrawer.to_hash_map (d : GreenElement) : List (List Char × List Char) :=
  (PropertyDrawer.iter d).foldl hashMapInsert []

/-- Lookup in the modelled hash map. -/
def hashMapGet (m : List (List Char × List Char)) (key : List Char) : Option (List Char) :=
  (m.find? fun q => q.1 = key).map Prod.snd

/-- `Snippet::backend`, translated from `src/ast/snippet.rs`: the
first TEXT token among the children; `none` models the
`expect("snippet must contains TEXT")` panic branch. -/
def Snippet.backend (s : GreenElement) : Option (List Char) :=
  (textTokens s).head?

/-- `Snippet::value`, translated from `src/ast/snippet.rs`: the second
TEXT token among the children; `none` models the
`expect("snippet must contains two TEXT")` panic branch. -/
def Snippet.value (s : GreenElement) : Option (List Char) :=
  (textTokens s).get? 1

/-- A completion suggestion, translated from
`orgize-lsp/src/completion.rs`: the label, the inserted template text,
and the byte range replaced by the text edit. -/
structure CompletionItemM where
  label : List Char
  newText : List Char
  editStart : Nat
  editEnd : Nat
  deriving DecidableEq, Repr

/-- The match arms of `completion`, translated from
`orgize-lsp/src/completion.rs`: two-byte filter text, label, and
template insertion text. -/
def completionArms : List (List Char × List Char × List Char) :=
  [("<a".data, "ASCI export block".data, "#+BEGIN_EXPORT ascii\n\n#+END_EXPORT\n".data),
   ("<c".data, "Center block".data, "#+BEGIN_CENTER\n\n#+END_CENTER\n".data),
   ("<C".data, "Comment block".data, "#+BEGIN_COMMENT\n\n#+END_COMMENT\n".data),
   ("<e".data, "Example block".data, "#+BEGIN_EXAMPLE\n\n#+END_EXAMPLE\n".data),
   ("<E".data, "Export block".data, "#+BEGIN_EXPORT\n\n#+END_EXPORT\n".data),
   ("<h".data, "HTML export block".data, "#+BEGIN_EXPORT html\n\n#+END_EXPORT\n".data),
   ("<l".data, "LaTeX export block".data, "#+BEGIN_EXPORT latex\n\n#+END_EXPORT\n".data),
   ("<q".data, "Quote block".data, "#+BEGIN_QUOTE\n\n#+END_QUOTE\n".data),
   ("<s".data, "Source block".data, "#+BEGIN_SRC\n\n#+END_SRC\n".data),
   ("<v".data, "Verse block".data, "#+BEGIN_VERSE\n\n#+END_VERSE\n".data)]

/-- `completion`, translated from `orgize-lsp/src/completion.rs`.  The
buffer is the document's text and the cursor is its byte offset (the
editor-protocol position/offset conversion of the spec's
offset-mapping boundary); `doc.text.get((offset - 2)..offset)` is
`none` when the slice is out of bounds, modelled by the length guard. -/
def completion (text : List Char) (offset : Nat) : Option (List CompletionItemM) :=
  if offset < 2 then none
  else if text.length < offset then none
  else
    let ft := (text.drop (offset - 2)).take 2
    match completionArms.find? fun a => a.1 = ft with
    | some a => some [⟨a.2.1, a.2.2, offset - 2, offset⟩]
    | none => none

/-- `trigger_characters`, translated from
`orgize-lsp/src/completion.rs`. -/
def trigger_characters : List (List Char) :=
  ["<a".data, "<c".data, "<C".data, "<e".data, "<E".data, "<h".data,
   "<l".data, "<q".data, "<s".data, "<v".data, "<I".data]

mutual

/-- Whether an element or one of its descendants carries a kind. -/
def containsKind (k : SyntaxKind) : GreenElement → Bool
  | .token k' _ => k' = k
  | .node k' cs => k' = k || containsKindList k cs

/-- Whether any element of the list contains a kind. -/
def containsKindList (k : SyntaxKind) : List GreenElement → Bool
  | [] => false
  | c :: cs => containsKind k c || containsKindList k cs

end

/-- The first HEADLINE child node of a document (the
`first_node::<Headline>()` of the inputs used here, whose first
headline is a top-level child of the document). -/
def firstHeadline (doc : GreenElement) : Option GreenElement :=
  (childNodes doc).find? fun c => kindOf c = HEADLINE

theorem textList_cons (c : GreenElement) (cs : List GreenElement) :
    GreenElement.textList (c :: cs) = c.text ++ GreenElement.textList cs := rfl

theorem textList_append (a b : List GreenElement) :
    GreenElement.textList (a ++ b) = GreenElement.textList a ++ GreenElement.textList b := by
  induction a with
  | nil => rfl
  | cons c cs ih => rw [List.cons_append, textList_cons, textList_cons, ih, List.append_assoc]

theorem textList_optToken (k : SyntaxKind) (x : List Char) :
    GreenElement.textList (if x.isEmpty then [] else [.token k x]) = x := by
  by_cases h : x.isEmpty
  · rw [if_pos h, List.isEmpty_iff.mp h]; rfl
  · rw [if_neg h]; simp [textList_cons, GreenElement.text, GreenElement.textList]

theorem textList_optTitle (x : List Char) :
    GreenElement.textList
      (if x.isEmpty then [] else [.node HEADLINE_TITLE [.token TEXT x]]) = x := by
  by_cases h : x.isEmpty
  · rw [if_pos h, List.isEmpty_iff.mp h]; rfl
  · rw [if_neg h]; simp [textList_cons, GreenElement.text, GreenElement.textList]

theorem textList_optSection (x : List Char) :
    GreenElement.textList
      (if x.isEmpty then []
       else [GreenElement.node SECTION [.node PARAGRAPH [.token TEXT x]]]) = x := by
  by_cases h : x.isEmpty
  · rw [if_pos h, List.isEmpty_iff.mp h]; rfl
  · rw [if_neg h]; simp [textList_cons, GreenElement.text, GreenElement.textList]

theorem takeLine_append (i : List Char) : (takeLine i).1 ++ (takeLine i).2 = i := by
  induction i with
  | nil => rfl
  | cons c r ih =>
    by_cases h : c = '\n'
    · simp [takeLine, h]
    · simp only [takeLine, h, if_false, List.cons_append]
      rw [ih]

theorem takeLine_fst_ne_nil (i : List Char) (h : i ≠ []) : (takeLine i).1 ≠ [] := by
  cases i with
  | nil => exact absurd rfl h
  | cons c r => by_cases hc : c = '\n' <;> simp [takeLine, hc]

theorem takeLine_snd_lt (i : List Char) (h : i ≠ []) : (takeLine i).2.length < i.length := by
  have ha := takeLine_append i
  have h1 : 0 < (takeLine i).1.length := List.length_pos.mpr (takeLine_fst_ne_nil i h)
  have : (takeLine i).1.length + (takeLine i).2.length = i.length := by
    rw [← List.length_append, ha]
  omega

theorem takeLine_snd_le (i : List Char) : (takeLine i).2.length ≤ i.length := by
  cases i with
  | nil => exact Nat.le_refl _
  | cons c r => exact Nat.le_of_lt (takeLine_snd_lt _ (by simp))

theorem splitLines_flatten (i : List Char) : (splitLines i).flatten = i := by
  induction i with
  | nil => rfl
  | cons c r ih =>
    by_cases h : c = '\n'
    · simp [splitLines, h, ih]
    · simp only [splitLines, h, if_false]
      cases hm : splitLines r with
      | nil =>
        rw [hm] at ih; simp at ih
        simp [← ih]
      | cons l ls =>
        rw [hm] at ih
        simp only [List.flatten_cons] at ih ⊢
        rw [List.cons_append, ih]

theorem stripNl_append (l : List Char) : (stripNl l).1 ++ (stripNl l).2 = l := by
  unfold stripNl
  by_cases h : l.getLast? = some '\n'
  · rw [if_pos h]
    have hne : l ≠ [] := by intro e; subst e; simp at h
    have hg : l.getLast hne = '\n' := by
      rw [List.getLast?_eq_getLast l hne] at h
      exact Option.some.inj h
    rw [← hg]
    exact List.dropLast_append_getLast hne
  · rw [if_neg h]; simp

theorem sectionTextF_append (fuel : Nat) :
    ∀ i : List Char, i.length ≤ fuel →
      (sectionTextF fuel i).1 ++ (sectionTextF fuel i).2 = i := by
  induction fuel with
  | zero =>
    intro i h
    rw [List.eq_nil_of_length_eq_zero (Nat.le_zero.mp h)]
    rfl
  | succ f ih =>
    intro i h
    by_cases hc : (i.isEmpty || isHlStart i) = true
    · simp [sectionTextF, hc]
    · simp only [sectionTextF, hc, Bool.false_eq_true, if_false]
      have hne : i ≠ [] := by
        intro e; subst e; simp at hc
      have hlt := takeLine_snd_lt i hne
      have := ih (takeLine i).2 (by omega)
      rw [List.append_assoc, this, takeLine_append]

theorem sectionTextF_snd_inv (fuel : Nat) :
    ∀ i : List Char, i.length ≤ fuel →
      (sectionTextF fuel i).2 = [] ∨ isHlStart (sectionTextF fuel i).2 = true := by
  induction fuel with
  | zero =>
    intro i h
    rw [List.eq_nil_of_length_eq_zero (Nat.le_zero.mp h)]
    exact Or.inl rfl
  | succ f ih =>
    intro i h
    by_cases hc : (i.isEmpty || isHlStart i) = true
    · simp only [sectionTextF, hc, if_true]
      rcases Bool.or_eq_true _ _ |>.mp hc with h1 | h1
      · exact Or.inl (List.isEmpty_iff.mp h1)
      · exact Or.inr h1
    · simp only [sectionTextF, hc, if_false]
      have hne : i ≠ [] := by intro e; subst e; simp at hc
      have hlt := takeLine_snd_lt i hne
      exact ih (takeLine i).2 (by omega)

theorem sectionTextF_snd_le (fuel : Nat) :
    ∀ i : List Char, (sectionTextF fuel i).2.length ≤ i.length := by
  induction fuel with
  | zero => intro i; exact Nat.le_refl _
  | succ f ih =>
    intro i
    by_cases hc : (i.isEmpty || isHlStart i) = true
    · simp [sectionTextF, hc]
    · simp only [sectionTextF, hc, Bool.false_eq_true, if_false]
      exact Nat.le_trans (ih (takeLine i).2) (takeLine_snd_le i)

theorem sectionTextF_fst_nil (fuel : Nat) :
    ∀ i : List Char, i.length ≤ fuel → (sectionTextF fuel i).1 = [] →
      i = [] ∨ isHlStart i = true := by
  induction fuel with
  | zero =>
    intro i h _
    exact Or.inl (List.eq_nil_of_length_eq_zero (Nat.le_zero.mp h))
  | succ f _ =>
    intro i _ hnil
    by_cases hc : (i.isEmpty || isHlStart i) = true
    · rcases Bool.or_eq_true _ _ |>.mp hc with h1 | h1
      · exact Or.inl (List.isEmpty_iff.mp h1)
      · exact Or.inr h1
    · exfalso
      simp only [sectionTextF, hc, Bool.false_eq_true, if_false] at hnil
      have hne : i ≠ [] := by intro e; subst e; simp at hc
      exact (takeLine_fst_ne_nil i hne) (List.append_eq_nil.mp hnil).1

theorem section_node_none (i : List Char) (h : section_node i = none) :
    i = [] ∨ isHlStart i = true := by
  unfold section_node at h
  by_cases hc : (sectionText i).1.isEmpty = true
  · exact sectionTextF_fst_nil i.length i (Nat.le_refl _) (List.isEmpty_iff.mp hc)
  · simp [hc] at h

theorem section_node_some (i r : List Char) (e : GreenElement)
    (h : section_node i = some (r, e)) :
    GreenElement.text e ++ r = i ∧ (r = [] ∨ isHlStart r = true) ∧ r.length ≤ i.length := by
  unfold section_node at h
  by_cases hc : (sectionText i).1.isEmpty = true
  · simp [hc] at h
  · rw [if_neg hc] at h
    injection h with h2
    injection h2 with hr he
    subst hr
    refine ⟨?_, sectionTextF_snd_inv i.length i (Nat.le_refl _),
      sectionTextF_snd_le i.length i⟩
    rw [← he]
    simp only [GreenElement.text, GreenElement.textList, List.append_nil]
    exact sectionTextF_append i.length i (Nat.le_refl _)

theorem blankLinesF_append (fuel : Nat) :
    ∀ i : List Char, i.length ≤ fuel →
      GreenElement.textList (blankLinesF fuel i).1 ++ (blankLinesF fuel i).2 = i := by
  induction fuel with
  | zero =>
    intro i h
    rw [List.eq_nil_of_length_eq_zero (Nat.le_zero.mp h)]
    rfl
  | succ f ih =>
    intro i h
    by_cases hb : isBlankLine (takeLine i).1 = true
    · simp only [blankLinesF, hb, if_true, textList_cons, GreenElement.text]
      have hne1 : (takeLine i).1 ≠ [] := by
        intro e
        rw [e] at hb
        simp [isBlankLine] at hb
      have hne : i ≠ [] := by
        intro e; subst e; exact hne1 rfl
      have hlt := takeLine_snd_lt i hne
      have := ih (takeLine i).2 (by omega)
      rw [List.append_assoc, this, takeLine_append]
    · simp [blankLinesF, hb, GreenElement.textList]

theorem isHlStart_elim (i : List Char) (h : isHlStart i = true) :
    0 < starCount i ∧ ∃ c t, i.dropWhile (· = '*') = c :: t ∧ isWsChar c = true := by
  unfold isHlStart at h
  rcases Bool.and_eq_true _ _ |>.mp h with ⟨h1, h2⟩
  refine ⟨of_decide_eq_true h1, ?_⟩
  cases hm : i.dropWhile (· = '*') with
  | nil => rw [hm] at h2; simp at h2
  | cons c t => rw [hm] at h2; exact ⟨c, t, rfl, h2⟩

theorem splitHlLine_append (i : List Char) :
    (splitHlLine i).1.stars ++ ((splitHlLine i).1.ws ++ ((splitHlLine i).1.title ++
      ((splitHlLine i).1.newline ++ (splitHlLine i).2))) = i := by
  unfold splitHlLine
  simp only
  rw [List.take_append_drop 1
    (List.dropWhile (· ≠ '\n') (List.dropWhile isWsChar (List.dropWhile (· = '*') i)))]
  rw [List.takeWhile_append_dropWhile (· ≠ '\n'),
    List.takeWhile_append_dropWhile isWsChar,
    List.takeWhile_append_dropWhile (· = '*')]

theorem splitHlLine_stars_length (i : List Char) :
    (splitHlLine i).1.stars.length = starCount i := rfl

theorem splitHlLine_ws_pos (i : List Char) (h : isHlStart i = true) :
    0 < (splitHlLine i).1.ws.length := by
  obtain ⟨_, c, t, hm, hc⟩ := isHlStart_elim i h
  show 0 < ((i.dropWhile (· = '*')).takeWhile isWsChar).length
  rw [hm, List.takeWhile_cons, if_pos hc]
  simp

theorem splitHlLine_len (i : List Char) :
    (splitHlLine i).1.stars.length + ((splitHlLine i).1.ws.length +
      ((splitHlLine i).1.title.length + ((splitHlLine i).1.newline.length +
        (splitHlLine i).2.length))) = i.length := by
  have ha := splitHlLine_append i
  conv_rhs => rw [← ha]
  simp [List.length_append]

theorem splitHlLine_snd_le (i : List Char) : (splitHlLine i).2.length ≤ i.length := by
  have := splitHlLine_len i
  omega

theorem splitHlLine_snd_lt (i : List Char) (h : isHlStart i = true) :
    (splitHlLine i).2.length + 2 ≤ i.length := by
  have hl := splitHlLine_len i
  have hws := splitHlLine_ws_pos i h
  have hst : 0 < (splitHlLine i).1.stars.length := by
    rw [splitHlLine_stars_length]
    exact (isHlStart_elim i h).1
  omega

theorem mkHeadline_text (hl : HlLine) (s : List Char) (subs : List GreenElement) :
    GreenElement.text (mkHeadline hl s subs) =
      hl.stars ++ (hl.ws ++ (hl.title ++ (hl.newline ++
        (s ++ GreenElement.textList subs)))) := by
  unfold mkHeadline
  simp only [GreenElement.text]
  rw [textList_append, textList_append, textList_append, textList_append]
  rw [textList_optTitle, textList_optToken, textList_optSection]
  simp [textList_cons, GreenElement.text, GreenElement.textList, List.append_assoc]

theorem level_mkHeadline (hl : HlLine) (s : List Char) (subs : List GreenElement) :
    Headline.level (mkHeadline hl s subs) = hl.stars.length := rfl

theorem kindOf_mkHeadline (hl : HlLine) (s : List Char) (subs : List GreenElement) :
    kindOf (mkHeadline hl s subs) = HEADLINE := rfl

theorem phf_guard_false {lvl : Nat} {i : List Char}
    (h : ¬((!isHlStart i || decide (starCount i ≤ lvl)) = true)) :
    isHlStart i = true ∧ lvl < starCount i := by
  simp only [Bool.or_eq_true, Bool.not_eq_eq_eq_not, Bool.not_true, decide_eq_true_eq,
    not_or] at h
  obtain ⟨h1, h2⟩ := h
  constructor
  · cases hb : isHlStart i
    · exact absurd hb h1
    · rfl
  · omega

theorem phf_fst_le (fuel : Nat) :
    ∀ (lvl : Nat) (i : List Char), (parseHeadlinesF fuel lvl i).1.length ≤ i.length := by
  induction fuel with
  | zero => intro lvl i; exact Nat.le_refl _
  | succ f ih =>
    intro lvl i
    by_cases hg : (!isHlStart i || decide (starCount i ≤ lvl)) = true
    · simp [parseHeadlinesF, hg]
    · simp only [parseHeadlinesF, hg, Bool.false_eq_true, if_false]
      refine Nat.le_trans (ih _ _) (Nat.le_trans (ih _ _) (Nat.le_trans
        (sectionTextF_snd_le _ _) (splitHlLine_snd_le i)))

theorem phf_append (fuel : Nat) :
    ∀ (lvl : Nat) (i : List Char), i.length < fuel →
      GreenElement.textList (parseHeadlinesF fuel lvl i).2 ++
        (parseHeadlinesF fuel lvl i).1 = i := by
  induction fuel with
  | zero => intro lvl i h; omega
  | succ f ih =>
    intro lvl i h
    by_cases hg : (!isHlStart i || decide (starCount i ≤ lvl)) = true
    · simp [parseHeadlinesF, hg, GreenElement.textList]
    · obtain ⟨hhl, _⟩ := phf_guard_false hg
      simp only [parseHeadlinesF, hg, Bool.false_eq_true, if_false]
      have hsp := splitHlLine_snd_lt i hhl
      have hq := sectionTextF_append (splitHlLine i).2.length (splitHlLine i).2
        (Nat.le_refl _)
      have hqle := sectionTextF_snd_le (splitHlLine i).2.length (splitHlLine i).2
      have hsub := ih (splitHlLine i).1.stars.length
        (sectionTextF (splitHlLine i).2.length (splitHlLine i).2).2 (by omega)
      have hsuble := phf_fst_le f (splitHlLine i).1.stars.length
        (sectionTextF (splitHlLine i).2.length (splitHlLine i).2).2
      have hsib := ih lvl
        (parseHeadlinesF f (splitHlLine i).1.stars.length
          (sectionTextF (splitHlLine i).2.length (splitHlLine i).2).2).1 (by omega)
      rw [textList_cons, mkHeadline_text]
      simp only [List.append_assoc]
      rw [hsib, hsub, hq]
      exact splitHlLine_append i

theorem phf_invariant (fuel : Nat) :
    ∀ (lvl : Nat) (i : List Char), i.length < fuel → (i = [] ∨ isHlStart i = true) →
      ((parseHeadlinesF fuel lvl i).1 = [] ∨
        isHlStart (parseHeadlinesF fuel lvl i).1 = true) := by
  induction fuel with
  | zero => intro lvl i h _; omega
  | succ f ih =>
    intro lvl i h hin
    by_cases hg : (!isHlStart i || decide (starCount i ≤ lvl)) = true
    · simp only [parseHeadlinesF, hg, if_true]
      exact hin
    · obtain ⟨hhl, _⟩ := phf_guard_false hg
      simp only [parseHeadlinesF, hg, Bool.false_eq_true, if_false]
      have hsp := splitHlLine_snd_lt i hhl
      have hqle := sectionTextF_snd_le (splitHlLine i).2.length (splitHlLine i).2
      have hqinv := sectionTextF_snd_inv (splitHlLine i).2.length (splitHlLine i).2
        (Nat.le_refl _)
      have hsuble := phf_fst_le f (splitHlLine i).1.stars.length
        (sectionTextF (splitHlLine i).2.length (splitHlLine i).2).2
      have hsubinv := ih (splitHlLine i).1.stars.length
        (sectionTextF (splitHlLine i).2.length (splitHlLine i).2).2 (by omega) hqinv
      exact ih lvl _ (by omega) hsubinv

theorem phf_stop (fuel : Nat) :
    ∀ (lvl : Nat) (i : List Char), i.length < fuel →
      isHlStart (parseHeadlinesF fuel lvl i).1 = true →
      starCount (parseHeadlinesF fuel lvl i).1 ≤ lvl := by
  induction fuel with
  | zero => intro lvl i h _; omega
  | succ f ih =>
    intro lvl i h hs
    by_cases hg : (!isHlStart i || decide (starCount i ≤ lvl)) = true
    · simp only [parseHeadlinesF, hg, if_true] at hs ⊢
      rcases Bool.or_eq_true _ _ |>.mp hg with h1 | h1
      · rw [hs] at h1; simp at h1
      · exact of_decide_eq_true h1
    · obtain ⟨hhl, _⟩ := phf_guard_false hg
      simp only [parseHeadlinesF, hg, Bool.false_eq_true, if_false] at hs ⊢
      have hsp := splitHlLine_snd_lt i hhl
      have hqle := sectionTextF_snd_le (splitHlLine i).2.length (splitHlLine i).2
      have hsuble := phf_fst_le f (splitHlLine i).1.stars.length
        (sectionTextF (splitHlLine i).2.length (splitHlLine i).2).2
      exact ih lvl _ (by omega) hs

theorem phf_elements (fuel : Nat) :
    ∀ (lvl : Nat) (i : List Char), ∀ e ∈ (parseHeadlinesF fuel lvl i).2,
      kindOf e = HEADLINE ∧ lvl < Headline.level e := by
  induction fuel with
  | zero => intro lvl i e he; simp [parseHeadlinesF] at he
  | succ f ih =>
    intro lvl i e he
    by_cases hg : (!isHlStart i || decide (starCount i ≤ lvl)) = true
    · simp only [parseHeadlinesF, hg, if_true] at he
      simp at he
    · obtain ⟨_, hlt⟩ := phf_guard_false hg
      simp only [parseHeadlinesF, hg, Bool.false_eq_true, if_false, List.mem_cons] at he
      rcases he with he | he
      · subst he
        refine ⟨kindOf_mkHeadline _ _ _, ?_⟩
        rw [level_mkHeadline, splitHlLine_stars_length]
        exact hlt
      · exact ih lvl _ e he

theorem headline_node_of_not (i : List Char) (h : isHlStart i = false) :
    headline_node i = none := by
  simp [headline_node, h]

theorem headline_node_eq (i : List Char) (h : isHlStart i = true) :
    headline_node i = some
      ((parseHeadlines (splitHlLine i).1.stars.length
        (sectionTextF (splitHlLine i).2.length (splitHlLine i).2).2).1,
       mkHeadline (splitHlLine i).1
        (sectionTextF (splitHlLine i).2.length (splitHlLine i).2).1
        (parseHeadlines (splitHlLine i).1.stars.length
          (sectionTextF (splitHlLine i).2.length (splitHlLine i).2).2).2) := by
  simp [headline_node, h, sectionText]

theorem headline_node_facts (i r : List Char) (e : GreenElement)
    (h : headline_node i = some (r, e)) :
    GreenElement.text e ++ r = i ∧ r.length < i.length ∧
      (r = [] ∨ isHlStart r = true) := by
  by_cases hh : isHlStart i = true
  · rw [headline_node_eq i hh] at h
    injection h with h2
    injection h2 with hr he
    subst hr
    have hsp := splitHlLine_snd_lt i hh
    have hqle := sectionTextF_snd_le (splitHlLine i).2.length (splitHlLine i).2
    have hq := sectionTextF_append (splitHlLine i).2.length (splitHlLine i).2
      (Nat.le_refl _)
    have hqinv := sectionTextF_snd_inv (splitHlLine i).2.length (splitHlLine i).2
      (Nat.le_refl _)
    have hsub := phf_append
      ((sectionTextF (splitHlLine i).2.length (splitHlLine i).2).2.length + 1)
      (splitHlLine i).1.stars.length
      (sectionTextF (splitHlLine i).2.length (splitHlLine i).2).2
      (Nat.lt_succ_self _)
    have hsuble := phf_fst_le
      ((sectionTextF (splitHlLine i).2.length (splitHlLine i).2).2.length + 1)
      (splitHlLine i).1.stars.length
      (sectionTextF (splitHlLine i).2.length (splitHlLine i).2).2
    have hsubinv := phf_invariant
      ((sectionTextF (splitHlLine i).2.length (splitHlLine i).2).2.length + 1)
      (splitHlLine i).1.stars.length
      (sectionTextF (splitHlLine i).2.length (splitHlLine i).2).2
      (Nat.lt_succ_self _) hqinv
    refine ⟨?_, by unfold parseHeadlines; omega, ?_⟩
    · rw [← he]
      rw [mkHeadline_text]
      simp only [List.append_assoc]
      unfold parseHeadlines
      rw [hsub, hq]
      exact splitHlLine_append i
    · unfold parseHeadlines
      exact hsubinv
  · rw [headline_node_of_not i (Bool.not_eq_true _ |>.mp hh)] at h
    exact absurd h (by simp)

theorem dh_count (fuel : Nat) :
    ∀ (i r : List Char) (hls : List GreenElement),
      documentHeadlinesF fuel i = some (r, hls) → hls.length ≤ i.length := by
  induction fuel with
  | zero =>
    intro i r hls h
    cases i with
    | nil =>
      simp only [documentHeadlinesF] at h
      injection h with h2
      injection h2 with _ he
      rw [← he]
      simp
    | cons c cs => simp [documentHeadlinesF] at h
  | succ f ih =>
    intro i r hls h
    cases i with
    | nil =>
      simp only [documentHeadlinesF] at h
      injection h with h2
      injection h2 with _ he
      rw [← he]
      simp
    | cons c cs =>
      simp only [documentHeadlinesF] at h
      cases hhn : headline_node (c :: cs) with
      | none => rw [hhn] at h; simp at h
      | some pr =>
        rw [hhn] at h
        obtain ⟨r1, hl⟩ := pr
        cases hrec : documentHeadlinesF f r1 with
        | none => simp [hrec] at h
        | some pr2 =>
          obtain ⟨r2, hls2⟩ := pr2
          simp only [hrec] at h
          injection h with h2
          injection h2 with hr2 hhls
          have hcons := headline_node_facts (c :: cs) r1 hl hhn
          have := ih r1 r2 hls2 hrec
          rw [← hhls]
          simp only [List.length_cons]
          have hlen := hcons.2.1
          simp only [List.length_cons] at hlen
          omega

theorem dh_total (fuel : Nat) :
    ∀ i : List Char, i.length ≤ fuel → (i = [] ∨ isHlStart i = true) →
      ∃ hls, documentHeadlinesF fuel i = some ([], hls) ∧
        GreenElement.textList hls = i := by
  induction fuel with
  | zero =>
    intro i h _
    rw [List.eq_nil_of_length_eq_zero (Nat.le_zero.mp h)]
    exact ⟨[], rfl, rfl⟩
  | succ f ih =>
    intro i h hin
    cases i with
    | nil => exact ⟨[], rfl, rfl⟩
    | cons c cs =>
      have hhl : isHlStart (c :: cs) = true := by
        rcases hin with h1 | h1
        · exact absurd h1 (by simp)
        · exact h1
      have heq := headline_node_eq (c :: cs) hhl
      have hfacts := headline_node_facts (c :: cs) _ _ heq
      obtain ⟨htext, hlen, hinv⟩ := hfacts
      obtain ⟨hls2, hrec, htl⟩ := ih
        (parseHeadlines (splitHlLine (c :: cs)).1.stars.length
          (sectionTextF (splitHlLine (c :: cs)).2.length (splitHlLine (c :: cs)).2).2).1
        (by simp only [List.length_cons] at h hlen ⊢; omega) hinv
      refine ⟨mkHeadline (splitHlLine (c :: cs)).1
        (sectionTextF (splitHlLine (c :: cs)).2.length (splitHlLine (c :: cs)).2).1
        (parseHeadlines (splitHlLine (c :: cs)).1.stars.length
          (sectionTextF (splitHlLine (c :: cs)).2.length (splitHlLine (c :: cs)).2).2).2
        :: hls2, ?_, ?_⟩
      · simp only [documentHeadlinesF, heq, hrec]
      · rw [textList_cons, htl]
        exact htext

theorem parsePropLine_text (l : List Char) (e : GreenElement)
    (h : parsePropLine l = some e) : GreenElement.text e = l := by
  unfold parsePropLine at h
  split at h
  next r =>
    by_cases hk : (r.takeWhile fun c => c ≠ ':' && c ≠ '\n').isEmpty = true
    · rw [if_pos hk] at h
      exact absurd h (by simp)
    · rw [if_neg hk] at h
      split at h
      next rest hr2 =>
        injection h with he
        rw [← he]
        simp only [GreenElement.text]
        rw [textList_append, textList_append, textList_append]
        rw [textList_optToken, textList_optToken, textList_optToken]
        simp only [textList_cons, GreenElement.text, GreenElement.textList,
          List.append_nil, List.append_assoc]
        rw [← List.append_assoc (List.takeWhile isWsChar (stripNl rest).1)]
        rw [List.takeWhile_append_dropWhile isWsChar, stripNl_append]
        simp only [List.singleton_append]
        rw [← hr2, List.takeWhile_append_dropWhile]
      next => exact absurd h (by simp)
  next => exact absurd h (by simp)

theorem endLineTokens_text (l : List Char) (h : (stripNl l).1 = ":END:".data) :
    GreenElement.textList (endLineTokens l) = l := by
  unfold endLineTokens
  rw [textList_append, textList_optToken]
  have h1 : GreenElement.textList [GreenElement.token COLON [':'],
      GreenElement.token TEXT "END".data, GreenElement.token COLON [':']]
      = ":END:".data := rfl
  rw [h1, ← h]
  exact stripNl_append l

theorem propertyLinesParse_text (ls : List (List Char)) :
    ∀ es rest, propertyLinesParse ls = some (es, rest) →
      GreenElement.textList es ++ rest.flatten = ls.flatten := by
  induction ls with
  | nil =>
    intro es rest h
    simp only [propertyLinesParse] at h
    injection h with h2
    injection h2 with h3 h4
    rw [← h3, ← h4]
    rfl
  | cons l ls ih =>
    intro es rest h
    simp only [propertyLinesParse] at h
    by_cases hend : (stripNl l).1 = ":END:".data
    · rw [if_pos hend] at h
      injection h with h2
      injection h2 with h3 h4
      rw [← h3, ← h4, List.flatten_cons, endLineTokens_text l hend]
    · rw [if_neg hend] at h
      cases hp : parsePropLine l with
      | none => rw [hp] at h; exact absurd h (by simp)
      | some e =>
        rw [hp] at h
        cases hq : propertyLinesParse ls with
        | none => rw [hq] at h; exact absurd h (by simp)
        | some pr =>
          obtain ⟨es2, rest2⟩ := pr
          rw [hq] at h
          injection h with h2
          injection h2 with h3 h4
          rw [← h3, ← h4, List.flatten_cons, textList_cons,
            parsePropLine_text l e hp, List.append_assoc, ih es2 rest2 hq]

theorem property_drawer_node_text (i r : List Char) (e : GreenElement)
    (h : property_drawer_node i = some (r, e)) :
    GreenElement.text e ++ r = i := by
  unfold property_drawer_node at h
  split at h
  next => exact absurd h (by simp)
  next l ls hs =>
    by_cases hp : (stripNl l).1 = ":PROPERTIES:".data
    · rw [if_pos hp] at h
      split at h
      next => exact absurd h (by simp)
      next es rest hq =>
        injection h with h2
        injection h2 with h3 h4
        rw [← h3, ← h4]
        simp only [GreenElement.text]
        rw [textList_append, textList_append, textList_optToken]
        have h1 : GreenElement.textList [GreenElement.token COLON [':'],
            GreenElement.token TEXT "PROPERTIES".data, GreenElement.token COLON [':']]
            = ":PROPERTIES:".data := rfl
        rw [h1, ← hp]
        simp only [List.append_assoc]
        rw [propertyLinesParse_text ls es rest hq]
        rw [← List.append_assoc, stripNl_append]
        rw [← List.flatten_cons, ← hs, splitLines_flatten]
    · rw [if_neg hp] at h
      exact absurd h (by simp)

theorem document_node_total (s : List Char) :
    ∃ cs, document_node s = some ([], .node DOCUMENT cs) ∧
      GreenElement.textList cs = s := by
  unfold document_node document_node_base
  by_cases hse : s.isEmpty = true
  · have hs0 : s = [] := List.isEmpty_iff.mp hse
    subst hs0
    exact ⟨[], rfl, rfl⟩
  · rw [if_neg hse]
    have main : ∀ (i1 : List Char) (pre : List GreenElement),
        GreenElement.textList pre ++ i1 = s →
        ∃ cs,
          (if (blank_lines i1).2.isEmpty then
            some ((blank_lines i1).2, GreenElement.node DOCUMENT (pre ++ (blank_lines i1).1))
          else
            match documentHeadlines
              (match section_node (blank_lines i1).2 with
                | some (r, e) => (r, [e])
                | none => ((blank_lines i1).2, [])).1 with
            | none => none
            | some (r, hls) =>
              some (r, GreenElement.node DOCUMENT ((pre ++ (blank_lines i1).1) ++
                (match section_node (blank_lines i1).2 with
                  | some (r, e) => (r, [e])
                  | none => ((blank_lines i1).2, [])).2 ++ hls))) =
            some ([], GreenElement.node DOCUMENT cs) ∧
          GreenElement.textList cs = s := by
      intro i1 pre hpre
      have hbl : GreenElement.textList (blank_lines i1).1 ++ (blank_lines i1).2 = i1 :=
        blankLinesF_append i1.length i1 (Nat.le_refl _)
      by_cases hbe : (blank_lines i1).2.isEmpty = true
      · rw [if_pos hbe]
        refine ⟨pre ++ (blank_lines i1).1, ?_, ?_⟩
        · rw [List.isEmpty_iff.mp hbe]
        · rw [textList_append, ← hpre]
          have h2 := hbl
          rw [List.isEmpty_iff.mp hbe, List.append_nil] at h2
          rw [h2]
      · rw [if_neg hbe]
        cases hsec : section_node (blank_lines i1).2 with
        | none =>
          have hinv : (blank_lines i1).2 = [] ∨ isHlStart (blank_lines i1).2 = true :=
            section_node_none _ hsec
          obtain ⟨hls, hdh0, htl⟩ := dh_total (blank_lines i1).2.length (blank_lines i1).2
            (Nat.le_refl _) hinv
          have hdh : documentHeadlines (blank_lines i1).2 = some ([], hls) := hdh0
          refine ⟨(pre ++ (blank_lines i1).1) ++ [] ++ hls, ?_, ?_⟩
          · simp only [hsec, hdh]
          · simp only [textList_append, GreenElement.textList, List.append_nil,
              List.append_assoc, List.append_eq, List.nil_append]
            rw [htl, hbl, hpre]
        | some pr =>
          obtain ⟨r2, se⟩ := pr
          obtain ⟨hst, hsinv, _⟩ := section_node_some _ _ _ hsec
          obtain ⟨hls, hdh0, htl⟩ := dh_total r2.length r2 (Nat.le_refl _) hsinv
          have hdh : documentHeadlines r2 = some ([], hls) := hdh0
          refine ⟨(pre ++ (blank_lines i1).1) ++ [se] ++ hls, ?_, ?_⟩
          · simp only [hsec, hdh]
          · simp only [textList_append, GreenElement.textList, textList_cons,
              List.append_nil, List.append_assoc, List.append_eq, List.nil_append]
            rw [htl, hst, hbl, hpre]
    cases hpd : property_drawer_node s with
    | none =>
      simp only [hpd]
      exact main s [] rfl
    | some pr =>
      obtain ⟨r1, pde⟩ := pr
      have hpdt := property_drawer_node_text s r1 pde hpd
      simp only [hpd]
      exact main r1 [pde] (by simpa [textList_cons, GreenElement.textList] using hpdt)

theorem snippet_node_shape (i r : List Char) (e : GreenElement)
    (h : snippet_node i = some (r, e)) :
    ∃ b v, e = .node SNIPPET
      [.token AT_AT "@@".data, .token TEXT b, .token COLON [':'],
       .token TEXT v, .token AT_AT "@@".data] := by
  unfold snippet_node at h
  split at h
  · dsimp only at h
    split at h
    · exact absurd h (by simp)
    · split at h
      · split at h
        · injection h with h2
          injection h2 with h3 h4
          exact ⟨_, _, h4.symm⟩
        · exact absurd h (by simp)
      · exact absurd h (by simp)
  · exact absurd h (by simp)

theorem findSome?_pair (l : List (List Char × List Char)) (key : List Char) :
    (l.findSome? fun p => if p.1 = key then some p.2 else none) =
      (l.find? fun p => decide (p.1 = key)).map Prod.snd := by
  induction l with
  | nil => rfl
  | cons p l ih =>
    by_cases hp : p.1 = key
    · have hb : (decide (p.1 = key)) = true := by simp [hp]
      simp [List.findSome?_cons, List.find?_cons, hb, if_pos hp]
    · have hb : (decide (p.1 = key)) = false := by simp [hp]
      simp only [List.findSome?_cons, List.find?_cons, hb, if_neg hp]
      exact ih

theorem find?_filter_ne (m : List (List Char × List Char)) (k k' : List Char)
    (hne : k ≠ k') :
    (m.filter fun q => decide (q.1 ≠ k')).find? (fun q => decide (q.1 = k)) =
      m.find? fun q => decide (q.1 = k) := by
  rw [List.find?_filter]
  congr 1
  funext q
  by_cases hq : q.1 = k
  · have h2 : q.1 ≠ k' := by rw [hq]; exact hne
    simp [hq, h2, hne]
  · simp [hq]

theorem hashMapGet_insert (m : List (List Char × List Char))
    (p : List Char × List Char) (k : List Char) :
    hashMapGet (hashMapInsert m p) k =
      if p.1 = k then some p.2 else hashMapGet m k := by
  unfold hashMapGet hashMapInsert
  rw [List.find?_append]
  by_cases hk : p.1 = k
  · have h1 : (List.filter (fun q => decide (q.1 ≠ p.1)) m).find?
        (fun q => decide (q.1 = k)) = none := by
      rw [List.find?_eq_none]
      intro x hx
      have hx2 := List.of_mem_filter hx
      simp only [decide_not, Bool.not_eq_eq_eq_not, Bool.not_true, decide_eq_false_iff_not] at hx2
      simp only [decide_eq_true_eq]
      rw [← hk]
      exact hx2
    rw [h1, if_pos hk]
    simp [List.find?_cons, hk]
  · rw [if_neg hk]
    have h2 : (List.find? (fun q => decide (q.1 = k)) [p]) = none := by
      simp [List.find?_cons, hk]
    rw [h2, find?_filter_ne m k p.1 fun hh => hk hh.symm]
    cases List.find? (fun q => decide (q.1 = k)) m <;> rfl

theorem foldl_insert_get (l : List (List Char × List Char)) :
    ∀ (acc : List (List Char × List Char)) (k : List Char),
      hashMapGet (l.foldl hashMapInsert acc) k =
        ((l.reverse.find? fun p => decide (p.1 = k)).map Prod.snd).or
          (hashMapGet acc k) := by
  induction l with
  | nil => intro acc k; simp
  | cons p l ih =>
    intro acc k
    rw [List.foldl_cons, ih, List.reverse_cons, List.find?_append]
    by_cases hk : p.1 = k
    · have h1 : (List.find? (fun q => decide (q.1 = k)) [p]) = some p := by
        simp [List.find?_cons, hk]
      rw [hashMapGet_insert, if_pos hk, h1]
      cases l.reverse.find? fun q => decide (q.1 = k) <;> rfl
    · have h2 : (List.find? (fun q => decide (q.1 = k)) [p]) = none := by
        simp [List.find?_cons, hk]
      rw [hashMapGet_insert, if_neg hk, h2]
      cases l.reverse.find? fun q => decide (q.1 = k) <;> rfl

theorem to_hash_map_get (d : GreenElement) (k : List Char) :
    hashMapGet (PropertyDrawer.to_hash_map d) k =
      ((PropertyDrawer.iter d).reverse.find? fun p => decide (p.1 = k)).map Prod.snd := by
  unfold PropertyDrawer.to_hash_map
  rw [foldl_insert_get]
  cases ((PropertyDrawer.iter d).reverse.find? fun p => decide (p.1 = k)) <;> rfl

theorem iter_length_aux (l : List GreenElement) :
    (l.filterMap fun p =>
      match textTokens p with
      | k :: v :: _ => some (k, v)
      | _ => none).length =
    (l.filter fun p => decide (2 ≤ (textTokens p).length)).length := by
  induction l with
  | nil => rfl
  | cons p l ih =>
    rw [List.filterMap_cons, List.filter_cons]
    cases htt : textTokens p with
    | nil => simpa [htt] using ih
    | cons k rest =>
      cases rest with
      | nil => simpa [htt] using ih
      | cons v rest2 =>
        simp only [htt, List.length_cons, decide_eq_true_eq]
        rw [if_pos (by omega)]
        simp [ih]

theorem is_commented_title (h1 h2 : GreenElement)
    (h : Headline.title h1 = Headline.title h2) :
    Headline.is_commented h1 = Headline.is_commented h2 := by
  unfold Headline.is_commented
  rw [h]

/-- C1: for every input string `s`, the in-order concatenation of the
leaf tokens of the tree returned by `document_node s` equals `s`
byte-for-byte — reconstructing the source from the parsed tree's
leaves yields exactly the original input. -/
theorem claim1_roundtrip (s : List Char) :
    ∃ t, document_node s = some ([], t) ∧ GreenElement.text t = s := by
  obtain ⟨cs, h1, h2⟩ := document_node_total s
  exact ⟨.node DOCUMENT cs, h1, by simpa [GreenElement.text] using h2⟩

/-- C2: the top-level parse function is defined for every input string,
including the empty string and malformed inputs; it never aborts and
always returns a tree whose root node has kind DOCUMENT. -/
theorem claim2_totality (s : List Char) :
    ∃ r t, document_node s = some (r, t) ∧ kindOf t = DOCUMENT := by
  obtain ⟨cs, h1, _⟩ := document_node_total s
  exact ⟨[], .node DOCUMENT cs, h1, rfl⟩

/-- C3: every successful `headline_node` call on non-empty remaining
input consumes at least one byte, so the headline-by-headline loop of
`document_node_base` performs at most `len s` iterations (one per
produced headline) on every input. -/
theorem claim3_monotonic :
    (∀ (i r : List Char) (e : GreenElement), i ≠ [] →
      headline_node i = some (r, e) → r.length < i.length) ∧
    (∀ (fuel : Nat) (i r : List Char) (hls : List GreenElement),
      documentHeadlinesF fuel i = some (r, hls) → hls.length ≤ i.length) :=
  ⟨fun i r e _ h => (headline_node_facts i r e h).2.1,
   fun fuel i r hls h => dh_count fuel i r hls h⟩

/-- Witness for C3 at concrete inputs. -/
theorem claim3_monotonic_witness :
    ([] : List Char).length < "* a".data.length ∧
    [GreenElement.node HEADLINE [.token HEADLINE_STARS ['*'], .token WHITESPACE [' '],
      .node HEADLINE_TITLE [.token TEXT ['b']]]].length ≤ "* b".data.length :=
  ⟨claim3_monotonic.1 "* a".data []
      (.node HEADLINE [.token HEADLINE_STARS ['*'], .token WHITESPACE [' '],
        .node HEADLINE_TITLE [.token TEXT ['a']]]) (by decide) rfl,
   claim3_monotonic.2 3 "* b".data []
      [.node HEADLINE [.token HEADLINE_STARS ['*'], .token WHITESPACE [' '],
        .node HEADLINE_TITLE [.token TEXT ['b']]]] rfl⟩

/-- C4: parsing "* a\n** b\n* c" yields a DOCUMENT with exactly two
top-level HEADLINE children; the first (level 1, title "a") owns the
level-2 headline titled "b" as a nested child, and the second
(level 1, title "c") is its sibling with no nested headline.  In
general every headline produced while parsing under level bound `lvl`
is a HEADLINE of strictly deeper level, and the repetition stops
exactly at the first headline of equal or shallower level. -/
theorem claim4_hierarchy :
    (∃ h1 h2,
      document_node "* a\n** b\n* c".data = some ([], .node DOCUMENT [h1, h2]) ∧
      kindOf h1 = HEADLINE ∧ Headline.level h1 = 1 ∧
      Headline.title_raw h1 = "a".data ∧
      (∃ hb, subHeadlines h1 = [hb] ∧ kindOf hb = HEADLINE ∧
        Headline.level hb = 2 ∧ Headline.title_raw hb = "b".data) ∧
      kindOf h2 = HEADLINE ∧ Headline.level h2 = 1 ∧
      Headline.title_raw h2 = "c".data ∧ subHeadlines h2 = []) ∧
    (∀ (lvl : Nat) (i : List Char),
      (∀ e ∈ (parseHeadlines lvl i).2, kindOf e = HEADLINE ∧ lvl < Headline.level e) ∧
      (isHlStart (parseHeadlines lvl i).1 = true →
        starCount (parseHeadlines lvl i).1 ≤ lvl)) := by
  constructor
  · exact ⟨.node HEADLINE [.token HEADLINE_STARS ['*'], .token WHITESPACE [' '],
        .node HEADLINE_TITLE [.token TEXT ['a']], .token NEW_LINE ['\n'],
        .node HEADLINE [.token HEADLINE_STARS ['*', '*'], .token WHITESPACE [' '],
          .node HEADLINE_TITLE [.token TEXT ['b']], .token NEW_LINE ['\n']]],
      .node HEADLINE [.token HEADLINE_STARS ['*'], .token WHITESPACE [' '],
        .node HEADLINE_TITLE [.token TEXT ['c']]],
      rfl, rfl, rfl, rfl,
      ⟨.node HEADLINE [.token HEADLINE_STARS ['*', '*'], .token WHITESPACE [' '],
          .node HEADLINE_TITLE [.token TEXT ['b']], .token NEW_LINE ['\n']],
        rfl, rfl, rfl, rfl⟩,
      rfl, rfl, rfl, rfl⟩
  · intro lvl i
    exact ⟨fun e he => phf_elements (i.length + 1) lvl i e he,
      fun hs => phf_stop (i.length + 1) lvl i (Nat.lt_succ_self _) hs⟩

/-- Witness for C4's general part at a concrete input. -/
theorem claim4_hierarchy_witness :
    kindOf (GreenElement.node HEADLINE
      [.token HEADLINE_STARS ['*'], .token WHITESPACE [' ']]) = HEADLINE ∧
    0 < Headline.level (GreenElement.node HEADLINE
      [.token HEADLINE_STARS ['*'], .token WHITESPACE [' ']]) :=
  (claim4_hierarchy.2 0 "* ".data).1
    (GreenElement.node HEADLINE [.token HEADLINE_STARS ['*'], .token WHITESPACE [' ']])
    (by rw [show (parseHeadlines 0 "* ".data).2 = [GreenElement.node HEADLINE
        [.token HEADLINE_STARS ['*'], .token WHITESPACE [' ']]] from rfl]
        exact List.mem_singleton.mpr rfl)

/-- C5: for the drawer parsed from
":PROPERTIES:\n:CUSTOM_ID: someid\n:CUSTOM_ID: id\n:END:", iter yields
the two pairs in source order, get returns the first occurrence's
value "someid", and to_hash_map has exactly one entry mapping
CUSTOM_ID to the last occurrence's value "id"; in general get returns
the first match and the map collection resolves duplicates to the last
occurrence. -/
theorem claim5_property_dedup :
    (∃ d, property_drawer_node
        ":PROPERTIES:\n:CUSTOM_ID: someid\n:CUSTOM_ID: id\n:END:".data = some ([], d) ∧
      PropertyDrawer.iter d =
        [("CUSTOM_ID".data, "someid".data), ("CUSTOM_ID".data, "id".data)] ∧
      PropertyDrawer.get d "CUSTOM_ID".data = some "someid".data ∧
      PropertyDrawer.to_hash_map d = [("CUSTOM_ID".data, "id".data)]) ∧
    (∀ (d : GreenElement) (key : List Char),
      PropertyDrawer.get d key =
        ((PropertyDrawer.iter d).find? fun p => decide (p.1 = key)).map Prod.snd) ∧
    (∀ (d : GreenElement) (key : List Char),
      hashMapGet (PropertyDrawer.to_hash_map d) key =
        ((PropertyDrawer.iter d).reverse.find? fun p => decide (p.1 = key)).map
          Prod.snd) := by
  refine ⟨⟨_, rfl, rfl, rfl, rfl⟩, ?_, ?_⟩
  · intro d key
    unfold PropertyDrawer.get
    exact findSome?_pair _ _
  · intro d key
    exact to_hash_map_get d key

/-- C6: every SNIPPET node emitted by the snippet grammar contains at
least two TEXT tokens, so backend returns the first TEXT token and
value the second and neither expect-panic branch is reachable;
concretely backend("@@BACKEND:VALUE@@") = "BACKEND" and
value("@@BACKEND:@@") = "". -/
theorem claim6_snippet :
    (∀ (i r : List Char) (e : GreenElement), snippet_node i = some (r, e) →
      2 ≤ (textTokens e).length ∧ (Snippet.backend e).isSome = true ∧
        (Snippet.value e).isSome = true) ∧
    (∃ r e, snippet_node "@@BACKEND:VALUE@@".data = some (r, e) ∧
      Snippet.backend e = some "BACKEND".data) ∧
    (∃ r e, snippet_node "@@BACKEND:@@".data = some (r, e) ∧
      Snippet.value e = some []) := by
  refine ⟨?_, ⟨[], _, rfl, rfl⟩, ⟨[], _, rfl, rfl⟩⟩
  intro i r e h
  obtain ⟨b, v, he⟩ := snippet_node_shape i r e h
  subst he
  exact ⟨Nat.le_refl 2, rfl, rfl⟩

/-- Witness for C6's general part at a concrete input. -/
theorem claim6_snippet_witness :
    2 ≤ (textTokens (GreenElement.node SNIPPET
      [.token AT_AT "@@".data, .token TEXT "html".data, .token COLON [':'],
       .token TEXT "x".data, .token AT_AT "@@".data])).length ∧
    (Snippet.backend (GreenElement.node SNIPPET
      [.token AT_AT "@@".data, .token TEXT "html".data, .token COLON [':'],
       .token TEXT "x".data, .token AT_AT "@@".data])).isSome = true ∧
    (Snippet.value (GreenElement.node SNIPPET
      [.token AT_AT "@@".data, .token TEXT "html".data, .token COLON [':'],
       .token TEXT "x".data, .token AT_AT "@@".data])).isSome = true :=
  claim6_snippet.1 "@@html:x@@".data []
    (GreenElement.node SNIPPET
      [.token AT_AT "@@".data, .token TEXT "html".data, .token COLON [':'],
       .token TEXT "x".data, .token AT_AT "@@".data]) rfl

/-- C7: parsing "*heading 1" produces no HEADLINE node for that line —
the text is absorbed as ordinary paragraph text in a section; in
general any input that does not begin with stars followed by
whitespace is rejected by the headline parser. -/
theorem claim7_fallback :
    document_node "*heading 1".data = some ([], .node DOCUMENT
      [.node SECTION [.node PARAGRAPH [.token TEXT "*heading 1".data]]]) ∧
    containsKind HEADLINE (.node DOCUMENT
      [.node SECTION [.node PARAGRAPH [.token TEXT "*heading 1".data]]]) = false ∧
    (∀ i : List Char, isHlStart i = false → headline_node i = none) :=
  ⟨rfl, rfl, fun i h => headline_node_of_not i h⟩

/-- Witness for C7's general part at a concrete input. -/
theorem claim7_fallback_witness :
    isHlStart "*x".data = false ∧ headline_node "*x".data = none :=
  ⟨rfl, claim7_fallback.2.2 "*x".data rfl⟩

/-- C8 counterexample: "<I" is among the trigger strings advertised by
trigger_characters, yet completion returns no suggestion when the two
preceding bytes are "<I" — the claim's iff against trigger_characters
fails. -/
theorem claim8_counterexample :
    "<I".data ∈ trigger_characters ∧ completion "<I".data 2 = none :=
  ⟨by decide, rfl⟩

/-- C8 (amended): completion returns exactly one suggestion iff the
cursor offset is at least 2, within the buffer, and the two characters
before it equal one of the ten filter strings of completion's match —
a strict subset of trigger_characters, which additionally advertises
"<I"; that suggestion's edit spans exactly those two characters with
the arm's literal template text. -/
theorem claim8_amended :
    (∀ (text : List Char) (offset : Nat),
      (∃ it, completion text offset = some [it] ∧ it.editStart = offset - 2 ∧
        it.editEnd = offset ∧
        (completionArms.find? fun a => a.1 = (text.drop (offset - 2)).take 2).map
          (fun a => (a.2.1, a.2.2)) = some (it.label, it.newText)) ↔
      (2 ≤ offset ∧ offset ≤ text.length ∧
        (text.drop (offset - 2)).take 2 ∈ completionArms.map Prod.fst)) ∧
    (completionArms.map Prod.fst).all (fun k => trigger_characters.contains k) = true ∧
    (completionArms.map Prod.fst).contains "<I".data = false := by
  refine ⟨?_, by decide, by decide⟩
  intro text offset
  constructor
  · rintro ⟨it, hC, _, _, _⟩
    unfold completion at hC
    by_cases h1 : offset < 2
    · rw [if_pos h1] at hC
      exact absurd hC (by simp)
    · rw [if_neg h1] at hC
      by_cases h2 : text.length < offset
      · rw [if_pos h2] at hC
        exact absurd hC (by simp)
      · rw [if_neg h2] at hC
        refine ⟨by omega, by omega, ?_⟩
        cases hf : completionArms.find? fun a => a.1 = (text.drop (offset - 2)).take 2 with
        | none =>
          simp only [hf] at hC
          exact absurd hC (by simp)
        | some a =>
          have hmem := List.mem_of_find?_eq_some hf
          have hpa := List.find?_some hf
          simp only [decide_eq_true_eq] at hpa
          exact List.mem_map.mpr ⟨a, hmem, hpa⟩
  · rintro ⟨h1, h2, h3⟩
    obtain ⟨a, ha, haeq⟩ := List.mem_map.mp h3
    have hsome : (completionArms.find? fun q =>
        q.1 = (text.drop (offset - 2)).take 2).isSome = true := by
      rw [List.find?_isSome]
      exact ⟨a, ha, by simp [haeq]⟩
    obtain ⟨a', ha'⟩ := Option.isSome_iff_exists.mp hsome
    refine ⟨⟨a'.2.1, a'.2.2, offset - 2, offset⟩, ?_, rfl, rfl, ?_⟩
    · unfold completion
      rw [if_neg (by omega), if_neg (by omega)]
      simp only [ha']
    · rw [ha']
      exact rfl

/-- C9: is_commented is true on the headline of "* COMMENT" and of
"* COMMENT hello" and false on that of "* hello"; it is a derived
predicate over the headline's title only. -/
theorem claim9_commented :
    ((document_node "* COMMENT".data).map fun p =>
      (firstHeadline p.2).map Headline.is_commented) = some (some true) ∧
    ((document_node "* COMMENT hello".data).map fun p =>
      (firstHeadline p.2).map Headline.is_commented) = some (some true) ∧
    ((document_node "* hello".data).map fun p =>
      (firstHeadline p.2).map Headline.is_commented) = some (some false) ∧
    (∀ g1 g2 : GreenElement, Headline.title g1 = Headline.title g2 →
      Headline.is_commented g1 = Headline.is_commented g2) :=
  ⟨rfl, rfl, rfl, fun g1 g2 h => is_commented_title g1 g2 h⟩

/-- Witness for C9's title-determinism at concrete headlines. -/
theorem claim9_commented_witness :
    Headline.is_commented (GreenElement.node HEADLINE
      [.token HEADLINE_STARS ['*'], .token WHITESPACE [' '],
       .node HEADLINE_TITLE [.token TEXT "COMMENT".data]]) =
    Headline.is_commented (GreenElement.node HEADLINE
      [.token HEADLINE_STARS ['*', '*'], .token WHITESPACE [' '],
       .node HEADLINE_TITLE [.token TEXT "COMMENT".data]]) :=
  claim9_commented.2.2.2 _ _ rfl

/-- C10: iter yields a key/value pair only for property lines with at
least two TEXT tokens; a line with fewer (a key with no value) is
silently omitted — it contributes no pair, no get result and no map
entry, and causes no error. -/
theorem claim10_omission :
    (∀ d : GreenElement, (PropertyDrawer.iter d).length =
      ((PropertyDrawer.node_properties d).filter fun p =>
        decide (2 ≤ (textTokens p).length)).length) ∧
    (∃ d, property_drawer_node ":PROPERTIES:\n:KEY:\n:A: b\n:END:".data = some ([], d) ∧
      (PropertyDrawer.node_properties d).length = 2 ∧
      PropertyDrawer.iter d = [("A".data, "b".data)] ∧
      PropertyDrawer.get d "KEY".data = none ∧
      hashMapGet (PropertyDrawer.to_hash_map d) "KEY".data = none) := by
  refine ⟨?_, ⟨_, rfl, rfl, rfl, rfl, rfl⟩⟩
  intro d
  unfold PropertyDrawer.iter
  exact iter_length_aux _

end Orgize
